import Mathlib

/- Verification of the cpp content server (HttpServer.cpp and
   LessonLoader.cpp): a shallow embedding of the request parser, response
   builder, router and the markdown rendering / lesson ordering pipeline,
   together with proofs about the properties of these functions.

   C++ byte strings (std::string) are modelled as lists of characters,
   one character per byte, so std::string::length corresponds to
   List.length.  While loops that scan and rewrite a string are modelled
   as recursions on the remaining suffix; loops whose cursor jumps by a
   computed amount carry an explicit fuel argument that is initialised
   with a bound proved sufficient (see the fuel-stability lemmas). -/

set_option maxHeartbeats 1000000
set_option maxRecDepth 100000

/-- C++ byte strings: one `Char` per byte. -/
abbrev Str := List Char

/-- Decide whether `pat` is a prefix of `s`; models `s.compare(0, n, pat) == 0`
and the position checks of `std::string::find`. -/
def leadsWith : Str → Str → Bool
  | [], _ => true
  | _ :: _, [] => false
  | p :: ps, c :: cs => p == c && leadsWith ps cs

/-- Split `s` at the first occurrence of `pat`, modelling
`pos = s.find(pat)`: `none` when `pat` does not occur, otherwise the text
before the occurrence and the text after it. -/
def splitFirst (pat : Str) : Str → Option (Str × Str)
  | [] => if pat.isEmpty then some ([], []) else none
  | c :: cs =>
    if leadsWith pat (c :: cs) then some ([], (c :: cs).drop pat.length)
    else (splitFirst pat cs).map (fun pr => (c :: pr.1, pr.2))

/-- Decide whether `pat` occurs anywhere in `s`, modelling
`s.find(pat) != std::string::npos`. -/
def containsStr : Str → Str → Bool
  | s, pat =>
    leadsWith pat s ||
      match s with
      | [] => false
      | _ :: cs => containsStr cs pat

/-- Count the positions of `s` at which `pat` starts (used to count tag
occurrences in rendered HTML). -/
def countOccur (pat : Str) : Str → Nat
  | [] => 0
  | c :: cs => (if leadsWith pat (c :: cs) then 1 else 0) + countOccur pat cs

/-- Drop the characters of `chs` from the front of `s`; models
`s.erase(0, s.find_first_not_of(chs))` (which erases everything when every
character belongs to `chs`). -/
def trimLeftChars (chs : Str) (s : Str) : Str :=
  s.dropWhile (fun c => chs.contains c)

/-- Drop the characters of `chs` from the back of `s`; models
`s.erase(s.find_last_not_of(chs) + 1)`. -/
def trimRightChars (chs : Str) (s : Str) : Str :=
  (trimLeftChars chs s.reverse).reverse

/-- Left trim then right trim, the combination used by the C++ code. -/
def trimChars (chs : Str) (s : Str) : Str :=
  trimRightChars chs (trimLeftChars chs s)

/-- Split `s` at every occurrence of the delimiter `d`, keeping empty
segments (`n` delimiters give `n + 1` segments). -/
def splitAllChar (d : Char) : Str → List Str
  | [] => [[]]
  | c :: cs =>
    let r := splitAllChar d cs
    if c == d then [] :: r
    else
      match r with
      | x :: xs => (c :: x) :: xs
      | [] => [[c]]

/-- The list of strings produced by repeated `std::getline(stream, line, d)`
on a stream holding `s`: like `splitAllChar` except that the empty input
yields no line and a trailing delimiter does not open a final empty line. -/
def cppGetlines (d : Char) (s : Str) : List Str :=
  if s = [] then []
  else if s.getLast? = some d then (splitAllChar d s).dropLast
  else splitAllChar d s

/-- Lookup in an association list; models `std::map::find` (the map is
keyed uniquely, so order of entries is irrelevant to lookup). -/
def lookupA {α : Type} : List (Str × α) → Str → Option α
  | [], _ => none
  | (k0, v) :: t, k => if k0 = k then some v else lookupA t k

/-- Insert-or-overwrite in an association list; models `m[key] = value`
on a `std::map` (later assignments to the same key overwrite). -/
def setAssoc : List (Str × Str) → Str → Str → List (Str × Str)
  | [], k, v => [(k, v)]
  | (k0, v0) :: t, k, v =>
    if k0 = k then (k0, v) :: t else (k0, v0) :: setAssoc t k v

/- ===================== HttpServer.cpp ===================== -/

/-- The reason-phrase switch of `HttpServer::createHttpResponse`. -/
def statusTextOf (code : Int) : Str :=
  if code = 200 then "OK".toList
  else if code = 404 then "Not Found".toList
  else if code = 405 then "Method Not Allowed".toList
  else "Internal Server Error".toList

/-- CRLF line terminator. -/
def crlf : Str := "\r\n".toList

/-- `HttpServer::createHttpResponse`: status line, fixed headers with
`Content-Length` equal to `body.length()`, a blank line, then the body. -/
def createHttpResponse (statusCode : Int) (contentType body : Str) : Str :=
  "HTTP/1.1 ".toList ++ (toString statusCode).toList ++ " ".toList ++
    statusTextOf statusCode ++ crlf ++
  "Content-Type: ".toList ++ contentType ++ crlf ++
  "Content-Length: ".toList ++ (toString body.length).toList ++ crlf ++
  "Access-Control-Allow-Origin: *".toList ++ crlf ++
  "Connection: close".toList ++ crlf ++
  crlf ++
  body

/-- `HttpServer::getMimeType`: content type chosen by the first of four
substring tests (`find != npos`), defaulting to text/plain. -/
def getMimeType (path : Str) : Str :=
  if containsStr path ".html".toList then "text/html".toList
  else if containsStr path ".css".toList then "text/css".toList
  else if containsStr path ".js".toList then "application/javascript".toList
  else if containsStr path ".json".toList then "application/json".toList
  else "text/plain".toList

/-- The whitespace class of `std::isspace`, used by `operator>>`. -/
def isCppSpace (c : Char) : Bool :=
  c == ' ' || c == '\t' || c == '\n' || c == '\r' || c == '\x0b' || c == '\x0c'

/-- `lineStream >> method >> path` on the first request line: skip
whitespace, read a token, twice; failed extraction leaves the empty
string. -/
def parseRequestLine (l : Str) : Str × Str :=
  let r1 := l.dropWhile isCppSpace
  let method := r1.takeWhile (fun c => !isCppSpace c)
  let r2 := (r1.dropWhile (fun c => !isCppSpace c)).dropWhile isCppSpace
  let path := r2.takeWhile (fun c => !isCppSpace c)
  (method, path)

/-- Remove one trailing carriage return:
`if (!value.empty() && value.back() == 0x0D) value.pop_back()`. -/
def stripTrailingCR (v : Str) : Str :=
  if v.getLast? = some '\r' then v.dropLast else v

/-- The header loop of `HttpServer::parseHttpRequest`: consume lines until
the first empty or bare-CR line, splitting each on its first colon (lines
without a colon are skipped), stripping one trailing CR from the value and
storing with overwrite; returns the header map and the remaining body
lines. -/
def headerLoop : List Str → List (Str × Str) → List (Str × Str) × List Str
  | [], hs => (hs, [])
  | l :: rest, hs =>
    if l = "\r".toList ∨ l = [] then (hs, rest)
    else
      match splitFirst [':'] l with
      | some (key, value) => headerLoop rest (setAssoc hs key (stripTrailingCR value))
      | none => headerLoop rest hs

/-- A parsed HTTP request: method, path, header map, body. -/
structure ParsedRequest where
  method : Str
  path : Str
  headers : List (Str × Str)
  body : Str
deriving DecidableEq

/-- `HttpServer::parseHttpRequest`: first line split by `>>`, then the
header loop, then the remaining lines joined with added newlines as the
body. -/
def parseHttpRequest (request : Str) : ParsedRequest :=
  match cppGetlines '\n' request with
  | [] => ⟨[], [], [], []⟩
  | first :: rest =>
    let mp := parseRequestLine first
    let hb := headerLoop rest []
    ⟨mp.1, mp.2, hb.1, hb.2.foldl (fun acc l => acc ++ l ++ "\n".toList) []⟩

/-- A route handler takes (body, headers) and returns a body string. -/
abbrev RouteHandler := Str → List (Str × Str) → Str

/-- Result of dispatching one request: status code, content type, body. -/
structure HttpResult where
  status : Int
  contentType : Str
  body : Str

/-- `HttpServer::serveStaticFile`: read `../static` + path, or the literal
"File not found".  The filesystem is abstracted as a partial map from file
path to content (`fileExists` / `readFileContent`). -/
def serveStaticFile (fs : Str → Option Str) (path : Str) : Str :=
  match fs ("../static".toList ++ path) with
  | some content => content
  | none => "File not found".toList

/-- The dispatch logic of `HttpServer::handleClient` (after parsing): the
`/course/` prefix renders a course page (400 when no module/lesson slash
is present); the `/css/` and `/js/` prefixes serve static files (404 when
missing); otherwise the route table is consulted method-first.  The page
generators `coursePage` (`generateCoursePage`) and `genHTML`
(`generateHTML`) are abstract collaborator parameters, as is the
filesystem `fs`. -/
def handleRequest (fs : Str → Option Str) (coursePage : Str → Str → Str)
    (genHTML : Str → Str → Str) (routes : List (Str × List (Str × RouteHandler)))
    (method path body : Str) (headers : List (Str × Str)) : HttpResult :=
  if leadsWith "/course/".toList path then
    let coursePath := path.drop 8
    match splitFirst ['/'] coursePath with
    | some (module, lesson) => ⟨200, "text/html".toList, coursePage module lesson⟩
    | none => ⟨400, "text/plain".toList, "Invalid course path".toList⟩
  else if leadsWith "/css/".toList path || leadsWith "/js/".toList path then
    let rb := serveStaticFile fs path
    ⟨if rb = "File not found".toList then 404 else 200, getMimeType path, rb⟩
  else
    match lookupA routes method with
    | none => ⟨405, "text/plain".toList, "Method Not Allowed".toList⟩
    | some pathMap =>
      match lookupA pathMap path with
      | none => ⟨404, "text/plain".toList, "Not Found".toList⟩
      | some handler =>
        let rb := handler body headers
        if path = "/".toList then
          ⟨200, "text/html".toList, genHTML "C++ Server Development Course".toList rb⟩
        else if path = "/health".toList || leadsWith "/api/".toList path then
          ⟨200, "application/json".toList, rb⟩
        else ⟨200, "text/plain".toList, rb⟩

/- ===================== LessonLoader.cpp : markdown passes ===================== -/

/-- Rejoin after a per-line transformation: `std::regex` with
`std::regex::multiline` and per-line patterns acts on each line between
newlines independently. -/
def mapLines (f : Str → Str) (s : Str) : Str :=
  List.intercalate "\n".toList ((splitAllChar '\n' s).map f)

/-- The whitespace class matched by the regex `\s` inside one line
(newlines never occur inside a split line; a terminal CR is handled by
the caller, which is the only place CR plausibly occurs). -/
def wsClassLine : Str := [' ', '\t', '\x0b', '\x0c']

/-- Match `\s+(.+)$` against the text following a matched literal line
prefix, returning the capture: at least one whitespace character, then a
nonempty remainder; when the remainder is empty the greedy `\s+`
backtracks one character into the capture. -/
def wsThenRest (after : Str) : Option Str :=
  let wsRun := after.takeWhile (fun c => wsClassLine.contains c)
  let rest := after.drop wsRun.length
  if wsRun ≠ [] ∧ rest ≠ [] then some rest
  else if 2 ≤ wsRun.length ∧ rest = [] then some [(wsRun.getLast?).getD ' ']
  else none

/-- Heading tags for levels 1 to 4. -/
def hOpen : Nat → Str
  | 1 => "<h1>".toList
  | 2 => "<h2>".toList
  | 3 => "<h3>".toList
  | _ => "<h4>".toList

/-- Closing heading tags for levels 1 to 4. -/
def hClose : Nat → Str
  | 1 => "</h1>".toList
  | 2 => "</h2>".toList
  | 3 => "</h3>".toList
  | _ => "</h4>".toList

/-- One line under the pattern of `LessonLoader::processHeaders` at level
`k`: lines matching the multiline regex `#{k}\s+(.+)$` anchored at line
start become a heading (a line with more leading hashes fails because the
character after the first `k` hashes is `#`, not whitespace); a terminal
CR sits past the `$` anchor and is preserved. -/
def headerLinePass (k : Nat) (line : Str) : Str :=
  let hasCR := line.getLast? = some '\r'
  let core := if hasCR then line.dropLast else line
  let cr : Str := if hasCR then ['\r'] else []
  if leadsWith (List.replicate k '#') core then
    match wsThenRest (core.drop k) with
    | some capture => hOpen k ++ capture ++ hClose k ++ cr
    | none => line
  else line

/-- `LessonLoader::processHeaders`: the four `regex_replace` passes for
`h1` to `h4`, in that order. -/
def processHeaders (s : Str) : Str :=
  mapLines (headerLinePass 4)
    (mapLines (headerLinePass 3)
      (mapLines (headerLinePass 2)
        (mapLines (headerLinePass 1) s)))

/-- The HTML emitted for one fenced code block (a "cpp"/"c++" language tag
selects the extra CSS class). -/
def codeBlockHtml (language code : Str) : Str :=
  if language = "cpp".toList ∨ language = "c++".toList then
    "<div class=\"code-example\"><pre><code class=\"language-cpp\">".toList ++
      code ++ "</code></pre></div>".toList
  else
    "<div class=\"code-example\"><pre><code>".toList ++ code ++
      "</code></pre></div>".toList

/-- The first while loop of `LessonLoader::processCodeBlocks`: find a
triple-backtick fence, find its closing fence (no closing fence breaks the
loop leaving the tail untouched), split off a language tag when a newline
precedes the closing fence, trim, and emit; scanning resumes after the
emitted HTML, i.e. on the text after the closing fence.  Each iteration
consumes at least six characters of the scanned suffix, so the fuel
`s.length + 1` supplied by `processCodeBlocks` never runs out (see
`codeFenceFuel_stable`). -/
def codeFenceFuel : Nat → Str → Str
  | 0, s => s
  | fuel + 1, s =>
    match splitFirst "```".toList s with
    | none => s
    | some (pre, afterOpen) =>
      match splitFirst "```".toList afterOpen with
      | none => s
      | some (mid, rest) =>
        let lc :=
          match splitFirst ['\n'] mid with
          | some (langRaw, codeRaw) => (trimChars " \t".toList langRaw, codeRaw)
          | none => (([] : Str), mid)
        pre ++ codeBlockHtml lc.1 (trimChars " \t\r\n".toList lc.2) ++
          codeFenceFuel fuel rest

/-- The skip guard of the inline-code loop, verbatim from the source:
`pos > 0 && html.substr(pos - 1, 6) == "</code>"`. -/
def inlineSkipAt (html : Str) (pos : Nat) : Bool :=
  decide (0 < pos) && decide ((html.drop (pos - 1)).take 6 = "</code>".toList)

/-- The second while loop of `LessonLoader::processCodeBlocks` (inline
code): at each backtick, if the skip guard fires the cursor advances one
position; otherwise the span up to the next backtick becomes
`<code>...</code>` (no closing backtick breaks the loop).  `acc` is the
text before the cursor, `rest` the text from the cursor on. -/
def inlineCodeFuel : Nat → Str → Str → Str
  | 0, acc, rest => acc ++ rest
  | fuel + 1, acc, rest =>
    match splitFirst ['`'] rest with
    | none => acc ++ rest
    | some (pre, afterTick) =>
      if inlineSkipAt (acc ++ rest) (acc.length + pre.length) then
        inlineCodeFuel fuel (acc ++ pre ++ ['`']) afterTick
      else
        match splitFirst ['`'] afterTick with
        | none => acc ++ rest
        | some (code, rest2) =>
          inlineCodeFuel fuel
            (acc ++ pre ++ "<code>".toList ++ code ++ "</code>".toList) rest2

/-- `LessonLoader::processCodeBlocks`: the fenced-block loop followed by
the inline-code loop. -/
def processCodeBlocks (s : Str) : Str :=
  let blocked := codeFenceFuel (s.length + 1) s
  inlineCodeFuel (blocked.length + 1) [] blocked

/-- The while loop of `LessonLoader::processBoldText`: each paired
`**...**` becomes `<strong>...</strong>`; a dangling opener (no closing
marker) breaks the loop leaving the tail untouched. -/
def boldFuel : Nat → Str → Str
  | 0, s => s
  | fuel + 1, s =>
    match splitFirst "**".toList s with
    | none => s
    | some (pre, rest1) =>
      match splitFirst "**".toList rest1 with
      | none => s
      | some (bold, rest2) =>
        pre ++ "<strong>".toList ++ bold ++ "</strong>".toList ++
          boldFuel fuel rest2

/-- `LessonLoader::processBoldText`. -/
def processBoldText (s : Str) : Str := boldFuel (s.length + 1) s

/-- One line under `^-\s+(.+)$` (unordered list items). -/
def ulLinePass (line : Str) : Str :=
  let hasCR := line.getLast? = some '\r'
  let core := if hasCR then line.dropLast else line
  let cr : Str := if hasCR then ['\r'] else []
  if leadsWith "-".toList core then
    match wsThenRest (core.drop 1) with
    | some capture => "<li>".toList ++ capture ++ "</li>".toList ++ cr
    | none => line
  else line

/-- One line under `^\d+\.\s+(.+)$` (ordered list items): a maximal
nonempty digit run, a literal dot, then whitespace and the capture. -/
def olLinePass (line : Str) : Str :=
  let hasCR := line.getLast? = some '\r'
  let core := if hasCR then line.dropLast else line
  let cr : Str := if hasCR then ['\r'] else []
  let digits := core.takeWhile Char.isDigit
  if digits ≠ [] ∧ leadsWith ".".toList (core.drop digits.length) then
    match wsThenRest (core.drop (digits.length + 1)) with
    | some capture => "<li>".toList ++ capture ++ "</li>".toList ++ cr
    | none => line
  else line

/-- The whitespace class of the regex `\s` where newlines are in scope
(between wrapped list items). -/
def wsClassAll : Str := [' ', '\t', '\n', '\r', '\x0b', '\x0c']

/-- One repetition of `(<li>.*?</li>\s*)`: a literal `<li>`, the lazily
shortest content up to `</li>` (which must not span a line break, since
`.` does not match line terminators), then greedy trailing whitespace.
Returns the matched text and the remainder. -/
def matchOneLi (s : Str) : Option (Str × Str) :=
  if leadsWith "<li>".toList s then
    match splitFirst "</li>".toList (s.drop 4) with
    | none => none
    | some (content, rest1) =>
      if content.contains '\n' ∨ content.contains '\r' then none
      else
        let ws := rest1.takeWhile (fun c => wsClassAll.contains c)
        some ("<li>".toList ++ content ++ "</li>".toList ++ ws, rest1.drop ws.length)
  else none

/-- Greedy `(<li>.*?</li>\s*)+`: as many repetitions as possible, at
least one. -/
def liRepeatsFuel : Nat → Str → Option (Str × Str)
  | 0, _ => none
  | fuel + 1, s =>
    match matchOneLi s with
    | none => none
    | some (m, rest) =>
      match liRepeatsFuel fuel rest with
      | some (m2, rest2) => some (m ++ m2, rest2)
      | none => some (m, rest)

/-- The `regex_replace` of `(<li>.*?</li>\s*)+` by `<ul>$&</ul>`: every
leftmost maximal run of wrapped items (a match can only start at a literal
`<li>`) is wrapped; an `<li>` where the repetition fails to match is
emitted untouched and scanning resumes after it. -/
def ulWrapFuel : Nat → Str → Str
  | 0, s => s
  | fuel + 1, s =>
    match splitFirst "<li>".toList s with
    | none => s
    | some (pre, afterLi) =>
      match liRepeatsFuel (afterLi.length + 4) ("<li>".toList ++ afterLi) with
      | some (m, rest) =>
        pre ++ "<ul>".toList ++ m ++ "</ul>".toList ++ ulWrapFuel fuel rest
      | none => pre ++ "<li>".toList ++ ulWrapFuel fuel afterLi

/-- `LessonLoader::processLists`: unordered items per line, then the
`<ul>` wrapping of consecutive `<li>` runs, then ordered items per line
(which are therefore never wrapped — the asymmetry is in the source). -/
def processLists (s : Str) : Str :=
  let a := mapLines ulLinePass s
  let b := ulWrapFuel (a.length + 1) a
  mapLines olLinePass b

/-- The `regex_replace` of `\[([^\]]+)\]\(([^)]+)\)` by
`<a href="$2">$1</a>`: bracketed nonempty text (the class `[^\]]` stops at
the first closing bracket) immediately followed by a parenthesised
nonempty url; where the tail fails to match, scanning resumes after the
opening bracket. -/
def linksFuel : Nat → Str → Str
  | 0, s => s
  | fuel + 1, s =>
    match splitFirst ['['] s with
    | none => s
    | some (pre, after1) =>
      match splitFirst [']'] after1 with
      | none => pre ++ "[".toList ++ linksFuel fuel after1
      | some (text, after2) =>
        if text = [] then pre ++ "[".toList ++ linksFuel fuel after1
        else
          match after2 with
          | c2 :: after3 =>
            if c2 = '(' then
              match splitFirst [')'] after3 with
              | none => pre ++ "[".toList ++ linksFuel fuel after1
              | some (url, rest) =>
                if url = [] then pre ++ "[".toList ++ linksFuel fuel after1
                else
                  pre ++ "<a href=\"".toList ++ url ++ "\">".toList ++ text ++
                    "</a>".toList ++ linksFuel fuel rest
            else pre ++ "[".toList ++ linksFuel fuel after1
          | [] => pre ++ "[".toList ++ linksFuel fuel after1

/-- `LessonLoader::processLinks`. -/
def processLinks (s : Str) : Str := linksFuel (s.length + 1) s

/-- A table row line: nonempty, starting and ending with a pipe. -/
def isTableRow (l : Str) : Bool :=
  match l with
  | [] => false
  | c :: _ => c == '|' && l.getLast? == some '|'

/-- A separator line: every character is a pipe, a dash or a space
(`std::all_of`, hence vacuously true on the empty line). -/
def isSeparatorLine (l : Str) : Bool :=
  l.all (fun c => c == '|' || c == '-' || c == ' ')

/-- The bold-replacement while loop inside `LessonLoader::processTableRow`
(same algorithm as `processBoldText`, repeated in the source for cells). -/
def cellBoldFuel : Nat → Str → Str
  | 0, s => s
  | fuel + 1, s =>
    match splitFirst "**".toList s with
    | none => s
    | some (pre, rest1) =>
      match splitFirst "**".toList rest1 with
      | none => s
      | some (bold, rest2) =>
        pre ++ "<strong>".toList ++ bold ++ "</strong>".toList ++
          cellBoldFuel fuel rest2

/-- One table cell: trim spaces and tabs, then bold substitution (the
`find("**")` guard in the source is redundant: the loop is a no-op when
no marker occurs). -/
def processCell (cell : Str) : Str :=
  let t := trimChars " \t".toList cell
  cellBoldFuel (t.length + 1) t

/-- `LessonLoader::processTableRow`: split on pipes by `getline`, skip the
first (empty) segment, and emit each remaining cell as `<td>`. -/
def processTableRow (row : Str) : Str :=
  match cppGetlines '|' row with
  | [] => "<tr>".toList ++ "</tr>".toList
  | _ :: rest =>
    "<tr>".toList ++
      rest.foldl (fun acc cell =>
        acc ++ "<td>".toList ++ processCell cell ++ "</td>".toList) [] ++
      "</tr>".toList

/-- Opening markup emitted at the start of a table block. -/
def tableOpen : Str :=
  "<div class=\"table-container\"><table class=\"course-table\">".toList

/-- Closing markup emitted at the end of a table block. -/
def tableClose : Str := "</table></div>".toList

/-- The line loop of `LessonLoader::processTables`: pipe-delimited lines
open (if needed) and extend a table, and after every emitted row the
following line is dropped when it consists only of pipes, dashes and
spaces; other lines close any open table and are copied with a newline
appended. -/
def tableLoop : List Str → Bool → Str
  | [], inTable => if inTable then tableClose else []
  | [l], inTable =>
    if isTableRow l then
      (if inTable then ([] : Str) else tableOpen) ++ processTableRow l ++
        tableLoop [] true
    else
      (if inTable then tableClose else []) ++ l ++ "\n".toList ++
        tableLoop [] false
  | l :: next :: rest2, inTable =>
    if isTableRow l then
      (if inTable then ([] : Str) else tableOpen) ++ processTableRow l ++
        (if isSeparatorLine next then tableLoop rest2 true
         else tableLoop (next :: rest2) true)
    else
      (if inTable then tableClose else []) ++ l ++ "\n".toList ++
        tableLoop (next :: rest2) false

/-- `LessonLoader::processTables`. -/
def processTables (s : Str) : Str :=
  tableLoop (cppGetlines '\n' s) false

/-- `LessonLoader::markdownToHtml`: the six passes in source order. -/
def markdownToHtml (s : Str) : Str :=
  processTables (processLinks (processLists (processBoldText
    (processCodeBlocks (processHeaders s)))))

/- ===================== LessonLoader.cpp : lesson ordering ===================== -/

/-- The hardcoded per-module lesson order of
`LessonLoader::sortLessonsInModule`. -/
def lessonOrderCatalog : List (Str × List Str) :=
  [("fundamentals".toList,
     ["introduction".toList, "sockets".toList, "http-basics".toList,
      "threading".toList]),
   ("building-blocks".toList,
     ["server-class".toList, "route-handling".toList,
      "request-parsing".toList, "response-generation".toList]),
   ("advanced-features".toList,
     ["database-integration".toList, "authentication".toList,
      "error-handling".toList, "performance".toList]),
   ("deployment".toList,
     ["production-setup".toList, "monitoring".toList, "scaling".toList,
      "security".toList])]

/-- `LessonLoader::sortLessonsInModule` on the lesson-name list of a
module: with no catalog entry the list is untouched; otherwise catalog
lessons found in the module are appended first, in catalog order, and a
second loop appends every lesson not already placed. -/
def sortLessonsInModule (name : Str) (lessons : List Str) : List Str :=
  match lookupA lessonOrderCatalog name with
  | none => lessons
  | some desired =>
    let sorted1 :=
      desired.foldl (fun acc ln => if ln ∈ lessons then acc ++ [ln] else acc) []
    lessons.foldl (fun acc ln => if ln ∈ acc then acc else acc ++ [ln]) sorted1

/-- The hardcoded module order of `LessonLoader::sortModulesInOrder`. -/
def moduleOrderDesired : List Str :=
  ["fundamentals".toList, "building-blocks".toList,
   "advanced-features".toList, "deployment".toList]

/-- `LessonLoader::sortModulesInOrder` on the list of loaded module names
(the input order stands for the `std::map` iteration order of the second
loop). -/
def sortModulesInOrder (moduleNames : List Str) : List Str :=
  let o1 :=
    moduleOrderDesired.foldl
      (fun acc m => if m ∈ moduleNames then acc ++ [m] else acc) []
  moduleNames.foldl (fun acc m => if m ∈ acc then acc else acc ++ [m]) o1

/-- Index of the first occurrence of `x` (`std::find`), or the length when
absent. -/
def firstIdx (x : Str) : List Str → Nat
  | [] => 0
  | y :: ys => if y = x then 0 else firstIdx x ys + 1

/-- `LessonLoader::getPreviousNextLesson`: unknown module or lesson gives
two empty strings; otherwise the neighbours of the first occurrence of the
current lesson, empty at either end. -/
def getPreviousNextLesson (modules : List (Str × List Str)) (module cur : Str) :
    Str × Str :=
  match lookupA modules module with
  | none => ([], [])
  | some lessons =>
    let i := firstIdx cur lessons
    if i < lessons.length then
      (if i = 0 then [] else lessons.getD (i - 1) [],
       if i + 1 < lessons.length then lessons.getD (i + 1) [] else [])
    else ([], [])

/- ===================== specification-side helpers and fixtures ===================== -/

/-- The non-blank test of the header loop, as a Boolean line predicate. -/
def notBlankLine (l : Str) : Bool := decide (¬(l = "\r".toList ∨ l = []))

/-- The key/value a single header line contributes: split at the first
colon, strip one trailing CR from the value (lines without a colon
contribute nothing). -/
def headerKV (l : Str) : Option (Str × Str) :=
  (splitFirst [':'] l).map (fun pr => (pr.1, stripTrailingCR pr.2))

/-- The value of the last pair with key `k`, if any. -/
def lastVal (k : Str) : List (Str × Str) → Option Str
  | [] => none
  | p :: t =>
    match lastVal k t with
    | some v => some v
    | none => if p.1 = k then some p.2 else none

/-- Fixture: an empty filesystem. -/
def fsEmpty : Str → Option Str := fun _ => none

/-- Fixture: a trivial course-page generator. -/
def cpEmpty : Str → Str → Str := fun _ _ => []

/-- Fixture: a trivial page-template generator. -/
def ghEmpty : Str → Str → Str := fun _ _ => []

/-- Fixture: a route table with a single GET route. -/
def demoRoutes : List (Str × List (Str × RouteHandler)) :=
  [("GET".toList, [("/health".toList, fun _ _ => "OK".toList)])]

/-- Fixture: a route table where the path /a exists only under GET while
POST has its own routes. -/
def demoRoutesTwo : List (Str × List (Str × RouteHandler)) :=
  [("GET".toList, [("/a".toList, fun _ _ => "OK".toList)]),
   ("POST".toList, [("/b".toList, fun _ _ => "OK".toList)])]

/-- Fixture: a raw request whose Host header value has a leading space on
the wire. -/
def rawReqDemo : Str :=
  "GET /x HTTP/1.1\r\nHost: example.com\r\n\r\nhello".toList

/-- Fixture: a three-line pipe table. -/
def demoTable : Str := "|a|b|\n|---|---|\n|c|d|".toList

/- ===================== basic lemmas ===================== -/

/-- `leadsWith` decides the prefix relation. -/
theorem leadsWith_iff (pat : Str) : ∀ s : Str,
    leadsWith pat s = true ↔ ∃ t, s = pat ++ t := by
  induction pat with
  | nil => intro s; simp [leadsWith]
  | cons p ps ih =>
    intro s
    cases s with
    | nil => simp [leadsWith]
    | cons c cs =>
      simp only [leadsWith, Bool.and_eq_true, beq_iff_eq, ih, List.cons_append]
      constructor
      · rintro ⟨rfl, t, rfl⟩; exact ⟨t, rfl⟩
      · rintro ⟨t, h⟩
        injection h with h1 h2
        exact ⟨h1.symm, t, h2⟩

/-- A successful `splitFirst` decomposes the string. -/
theorem splitFirst_some (pat : Str) : ∀ s a b : Str,
    splitFirst pat s = some (a, b) → s = a ++ pat ++ b := by
  intro s
  induction s with
  | nil =>
    intro a b h
    simp only [splitFirst] at h
    by_cases hp : pat.isEmpty
    · simp [hp] at h
      obtain ⟨rfl, rfl⟩ := h
      simp at hp
      simp [hp]
    · simp [hp] at h
  | cons c cs ih =>
    intro a b h
    simp only [splitFirst] at h
    by_cases hl : leadsWith pat (c :: cs) = true
    · simp [hl] at h
      obtain ⟨rfl, rfl⟩ := h
      obtain ⟨t, ht⟩ := (leadsWith_iff pat (c :: cs)).1 hl
      rw [ht, List.drop_left]
      simp
    · rw [if_neg hl] at h
      cases hsp : splitFirst pat cs with
      | none => rw [hsp] at h; simp at h
      | some pr =>
        obtain ⟨a0, b0⟩ := pr
        rw [hsp] at h
        simp only [Option.map_some', Option.some.injEq, Prod.mk.injEq] at h
        obtain ⟨rfl, rfl⟩ := h
        have := ih a0 b0 hsp
        simp [this]

/-- Length bookkeeping for a successful `splitFirst`. -/
theorem splitFirst_lengths {pat s a b : Str} (h : splitFirst pat s = some (a, b)) :
    s.length = a.length + pat.length + b.length := by
  have := splitFirst_some pat s a b h
  subst this
  simp [List.length_append]
  omega

/-- The bold loop is insensitive to fuel above the input length: each
iteration consumes at least four characters of the scanned suffix. -/
theorem boldFuel_stable : ∀ f1 : Nat, ∀ s : Str, ∀ f2 : Nat,
    s.length < f1 → s.length < f2 → boldFuel f1 s = boldFuel f2 s := by
  intro f1
  induction f1 with
  | zero => intro s f2 h1 h2; omega
  | succ f ih =>
    intro s f2 h1 h2
    cases f2 with
    | zero => omega
    | succ g =>
      cases hsp : splitFirst "**".toList s with
      | none => simp only [boldFuel, hsp]
      | some pr =>
        obtain ⟨pre, rest1⟩ := pr
        cases hsp2 : splitFirst "**".toList rest1 with
        | none => simp only [boldFuel, hsp, hsp2]
        | some pr2 =>
          obtain ⟨bold, rest2⟩ := pr2
          have e1 := splitFirst_lengths hsp
          have e2 := splitFirst_lengths hsp2
          have hp2 : ("**".toList).length = 2 := rfl
          rw [hp2] at e1 e2
          simp only [boldFuel, hsp, hsp2]
          rw [ih rest2 g (by omega) (by omega)]

/-- The cell bold loop is insensitive to fuel above the input length. -/
theorem cellBoldFuel_stable : ∀ f1 : Nat, ∀ s : Str, ∀ f2 : Nat,
    s.length < f1 → s.length < f2 → cellBoldFuel f1 s = cellBoldFuel f2 s := by
  intro f1
  induction f1 with
  | zero => intro s f2 h1 h2; omega
  | succ f ih =>
    intro s f2 h1 h2
    cases f2 with
    | zero => omega
    | succ g =>
      cases hsp : splitFirst "**".toList s with
      | none => simp only [cellBoldFuel, hsp]
      | some pr =>
        obtain ⟨pre, rest1⟩ := pr
        cases hsp2 : splitFirst "**".toList rest1 with
        | none => simp only [cellBoldFuel, hsp, hsp2]
        | some pr2 =>
          obtain ⟨bold, rest2⟩ := pr2
          have e1 := splitFirst_lengths hsp
          have e2 := splitFirst_lengths hsp2
          have hp2 : ("**".toList).length = 2 := rfl
          rw [hp2] at e1 e2
          simp only [cellBoldFuel, hsp, hsp2]
          rw [ih rest2 g (by omega) (by omega)]

/-- The code-fence loop is insensitive to fuel above the input length:
each iteration consumes at least the six fence characters. -/
theorem codeFenceFuel_stable : ∀ f1 : Nat, ∀ s : Str, ∀ f2 : Nat,
    s.length < f1 → s.length < f2 → codeFenceFuel f1 s = codeFenceFuel f2 s := by
  intro f1
  induction f1 with
  | zero => intro s f2 h1 h2; omega
  | succ f ih =>
    intro s f2 h1 h2
    cases f2 with
    | zero => omega
    | succ g =>
      cases hsp : splitFirst "```".toList s with
      | none => simp only [codeFenceFuel, hsp]
      | some pr =>
        obtain ⟨pre, afterOpen⟩ := pr
        cases hsp2 : splitFirst "```".toList afterOpen with
        | none => simp only [codeFenceFuel, hsp, hsp2]
        | some pr2 =>
          obtain ⟨mid, rest⟩ := pr2
          have e1 := splitFirst_lengths hsp
          have e2 := splitFirst_lengths hsp2
          have hp3 : ("```".toList).length = 3 := rfl
          rw [hp3] at e1 e2
          simp only [codeFenceFuel, hsp, hsp2]
          rw [ih rest g (by omega) (by omega)]

/-- The inline-code skip guard can never fire: it compares a substring of
length at most six with the seven-character string. -/
theorem inlineSkipAt_false (html : Str) (pos : Nat) : inlineSkipAt html pos = false := by
  have hne : ¬((html.drop (pos - 1)).take 6 = "</code>".toList) := by
    intro h
    have hlen := congrArg List.length h
    rw [List.length_take] at hlen
    have h7 : ("</code>".toList).length = 7 := rfl
    rw [h7] at hlen
    omega
  simp [inlineSkipAt]
  intro _
  exact hne

/-- The inline-code loop is insensitive to fuel above the length of the
unscanned suffix. -/
theorem inlineCodeFuel_stable : ∀ f1 : Nat, ∀ acc rest : Str, ∀ f2 : Nat,
    rest.length < f1 → rest.length < f2 →
    inlineCodeFuel f1 acc rest = inlineCodeFuel f2 acc rest := by
  intro f1
  induction f1 with
  | zero => intro acc rest f2 h1 h2; omega
  | succ f ih =>
    intro acc rest f2 h1 h2
    cases f2 with
    | zero => omega
    | succ g =>
      cases hsp : splitFirst ['`'] rest with
      | none => simp only [inlineCodeFuel, hsp]
      | some pr =>
        obtain ⟨pre, afterTick⟩ := pr
        have e1 := splitFirst_lengths hsp
        have hp1 : (['`'] : Str).length = 1 := rfl
        rw [hp1] at e1
        cases hsp2 : splitFirst ['`'] afterTick with
        | none =>
          simp [inlineCodeFuel, hsp, hsp2, inlineSkipAt_false]
        | some pr2 =>
          obtain ⟨code, rest2⟩ := pr2
          have e2 := splitFirst_lengths hsp2
          rw [hp1] at e2
          have hrec : ∀ a : Str, inlineCodeFuel f a rest2 = inlineCodeFuel g a rest2 :=
            fun a => ih a rest2 g (by omega) (by omega)
          simp [inlineCodeFuel, hsp, hsp2, inlineSkipAt_false, hrec]

/-- The links loop is insensitive to fuel above the input length. -/
theorem linksFuel_stable : ∀ f1 : Nat, ∀ s : Str, ∀ f2 : Nat,
    s.length < f1 → s.length < f2 → linksFuel f1 s = linksFuel f2 s := by
  intro f1
  induction f1 with
  | zero => intro s f2 h1 h2; omega
  | succ f ih =>
    intro s f2 h1 h2
    cases f2 with
    | zero => omega
    | succ g =>
      cases hsp : splitFirst ['['] s with
      | none => simp only [linksFuel, hsp]
      | some pr =>
        obtain ⟨pre, after1⟩ := pr
        have e1 := splitFirst_lengths hsp
        have hp1 : (['['] : Str).length = 1 := rfl
        rw [hp1] at e1
        have hrec1 : linksFuel f after1 = linksFuel g after1 :=
          ih after1 g (by omega) (by omega)
        cases hsp2 : splitFirst [']'] after1 with
        | none => simp [linksFuel, hsp, hsp2, hrec1]
        | some pr2 =>
          obtain ⟨text, after2⟩ := pr2
          have e2 := splitFirst_lengths hsp2
          have hp2 : ([']'] : Str).length = 1 := rfl
          rw [hp2] at e2
          by_cases htext : text = []
          · simp [linksFuel, hsp, hsp2, htext, hrec1]
          · cases after2 with
            | nil => simp [linksFuel, hsp, hsp2, htext, hrec1]
            | cons c2 after3 =>
              have hafter2 : (c2 :: after3).length = after3.length + 1 := by simp
              by_cases hc2 : c2 = '('
              · cases hsp3 : splitFirst [')'] after3 with
                | none => simp [linksFuel, hsp, hsp2, htext, hc2, hsp3, hrec1]
                | some pr3 =>
                  obtain ⟨url, rest⟩ := pr3
                  have e3 := splitFirst_lengths hsp3
                  have hp3 : ([')'] : Str).length = 1 := rfl
                  rw [hp3] at e3
                  by_cases hurl : url = []
                  · simp [linksFuel, hsp, hsp2, htext, hc2, hsp3, hurl, hrec1]
                  · have hrec2 : linksFuel f rest = linksFuel g rest :=
                      ih rest g (by omega) (by omega)
                    simp [linksFuel, hsp, hsp2, htext, hc2, hsp3, hurl, hrec1, hrec2]
              · simp [linksFuel, hsp, hsp2, htext, hc2, hrec1]

/-- One wrapped list item consumes at least nine characters. -/
theorem matchOneLi_some {s m rest : Str} (h : matchOneLi s = some (m, rest)) :
    rest.length + 9 ≤ s.length := by
  unfold matchOneLi at h
  by_cases hl : leadsWith "<li>".toList s = true
  · rw [if_pos hl] at h
    cases hsp : splitFirst "</li>".toList (s.drop 4) with
    | none => simp only [hsp] at h; exact absurd h (by simp)
    | some pr =>
      obtain ⟨content, rest1⟩ := pr
      simp only [hsp] at h
      by_cases hc : (content.contains '\n' ∨ content.contains '\r')
      · rw [if_pos hc] at h
        exact absurd h (by simp)
      · simp only [hc, if_false, Option.some.injEq, Prod.mk.injEq, if_neg] at h
        obtain ⟨hm, hrest⟩ := h
        obtain ⟨t, ht⟩ := (leadsWith_iff _ s).1 hl
        have hslen : s.length = 4 + t.length := by rw [ht]; simp; omega
        have hdrop : s.drop 4 = t := by rw [ht]; simp [List.drop_append]
        have hlen := splitFirst_lengths hsp
        rw [hdrop] at hlen
        have hp5 : ("</li>".toList).length = 5 := rfl
        rw [hp5] at hlen
        have hrl : rest.length ≤ rest1.length := by
          rw [← hrest]; simp [List.length_drop]
        omega
  · rw [if_neg hl] at h
    simp at h

/-- A successful greedy item run consumes at least nine characters. -/
theorem liRepeatsFuel_some : ∀ fuel : Nat, ∀ s m rest : Str,
    liRepeatsFuel fuel s = some (m, rest) → rest.length + 9 ≤ s.length := by
  intro fuel
  induction fuel with
  | zero => intro s m rest h; simp [liRepeatsFuel] at h
  | succ f ih =>
    intro s m rest h
    simp only [liRepeatsFuel] at h
    cases h1 : matchOneLi s with
    | none => simp only [h1] at h; simp at h
    | some pr =>
      obtain ⟨m1, rest1⟩ := pr
      simp only [h1] at h
      have hb := matchOneLi_some h1
      cases h2 : liRepeatsFuel f rest1 with
      | none =>
        simp only [h2, Option.some.injEq, Prod.mk.injEq] at h
        obtain ⟨_, rfl⟩ := h
        omega
      | some pr2 =>
        obtain ⟨m2, rest2⟩ := pr2
        simp only [h2, Option.some.injEq, Prod.mk.injEq] at h
        obtain ⟨_, rfl⟩ := h
        have := ih rest1 m2 rest2 h2
        omega

/-- The greedy item run is insensitive to fuel at or above the input
length. -/
theorem liRepeatsFuel_stable : ∀ f1 : Nat, ∀ s : Str, ∀ f2 : Nat,
    s.length ≤ f1 → s.length ≤ f2 → liRepeatsFuel f1 s = liRepeatsFuel f2 s := by
  intro f1
  induction f1 with
  | zero =>
    intro s f2 h1 h2
    have hs : s = [] := by cases s with
      | nil => rfl
      | cons c cs => simp at h1
    subst hs
    cases f2 with
    | zero => rfl
    | succ g =>
      have hnone : matchOneLi [] = none := rfl
      simp [liRepeatsFuel, hnone]
  | succ f ih =>
    intro s f2 h1 h2
    cases f2 with
    | zero =>
      have hs : s = [] := by cases s with
        | nil => rfl
        | cons c cs => simp at h2
      subst hs
      have hnone : matchOneLi [] = none := rfl
      simp [liRepeatsFuel, hnone]
    | succ g =>
      cases h1m : matchOneLi s with
      | none => simp only [liRepeatsFuel, h1m]
      | some pr =>
        obtain ⟨m1, rest1⟩ := pr
        have hb := matchOneLi_some h1m
        have hrec : liRepeatsFuel f rest1 = liRepeatsFuel g rest1 :=
          ih rest1 g (by omega) (by omega)
        simp only [liRepeatsFuel, h1m, hrec]

/-- The item-wrapping loop is insensitive to fuel above the input
length. -/
theorem ulWrapFuel_stable : ∀ f1 : Nat, ∀ s : Str, ∀ f2 : Nat,
    s.length < f1 → s.length < f2 → ulWrapFuel f1 s = ulWrapFuel f2 s := by
  intro f1
  induction f1 with
  | zero => intro s f2 h1 h2; omega
  | succ f ih =>
    intro s f2 h1 h2
    cases f2 with
    | zero => omega
    | succ g =>
      cases hsp : splitFirst "<li>".toList s with
      | none => simp only [ulWrapFuel, hsp]
      | some pr =>
        obtain ⟨pre, afterLi⟩ := pr
        have e1 := splitFirst_lengths hsp
        have hp4 : ("<li>".toList).length = 4 := rfl
        rw [hp4] at e1
        cases hrep : liRepeatsFuel (afterLi.length + 4) ("<li>".toList ++ afterLi) with
        | none =>
          have hrep2 : liRepeatsFuel (afterLi.length + 4)
              ('<' :: 'l' :: 'i' :: '>' :: afterLi) = none := hrep
          have hrec : ulWrapFuel f afterLi = ulWrapFuel g afterLi :=
            ih afterLi g (by omega) (by omega)
          simp only [ulWrapFuel, hsp, hrep, hrep2, hrec]
        | some pr2 =>
          obtain ⟨m, rest⟩ := pr2
          have hrep2 : liRepeatsFuel (afterLi.length + 4)
              ('<' :: 'l' :: 'i' :: '>' :: afterLi) = some (m, rest) := hrep
          have hb := liRepeatsFuel_some _ _ _ _ hrep
          have hlil : ("<li>".toList ++ afterLi).length = 4 + afterLi.length := by
            simp
            omega
          have hrec : ulWrapFuel f rest = ulWrapFuel g rest := by
            apply ih rest g <;> omega
          simp only [ulWrapFuel, hsp, hrep, hrep2, hrec]

/- ===================== claim theorems ===================== -/

/-- C2: for every status code, content type and body, the response built
by `createHttpResponse` carries a `Content-Length` header whose value is
the length of exactly the body bytes that follow the blank line. -/
theorem claim_C2_content_length (code : Int) (ct body : Str) :
    ∃ A B : Str,
      createHttpResponse code ct body =
        A ++ ("Content-Length: ".toList ++ (toString body.length).toList ++ crlf) ++
          B ++ crlf ++ crlf ++ body := by
  refine ⟨"HTTP/1.1 ".toList ++ (toString code).toList ++ " ".toList ++
    statusTextOf code ++ crlf ++ "Content-Type: ".toList ++ ct ++ crlf,
    "Access-Control-Allow-Origin: *".toList ++ crlf ++ "Connection: close".toList, ?_⟩
  simp [createHttpResponse, crlf, List.append_assoc]

/-- C4: the inline-code skip guard (`pos > 0 && html.substr(pos-1, 6) ==
"</code>"`) compares a window of at most six characters with a
seven-character string, so it never fires and every backtick span is
converted, even one immediately preceded by a just-emitted closing
code tag, as in `processCodeBlocks` on the string of a-in-backticks
followed by b-in-backticks. -/
theorem claim_C4_inline_skip_dead :
    (∀ html : Str, ∀ pos : Nat, inlineSkipAt html pos = false) ∧
    processCodeBlocks "`a``b`".toList = "<code>a</code><code>b</code>".toList :=
  ⟨fun html pos => inlineSkipAt_false html pos, by decide⟩

/-- A prefix test for a longer pattern entails the test for its own
prefix. -/
theorem leadsWith_append_left (a b : Str) (s : Str)
    (h : leadsWith (a ++ b) s = true) : leadsWith a s = true := by
  obtain ⟨t, rfl⟩ := (leadsWith_iff _ s).1 h
  exact (leadsWith_iff a _).2 ⟨b ++ t, by simp⟩

/-- A string containing ".json" also contains ".js". -/
theorem contains_json_js : ∀ p : Str,
    containsStr p ".json".toList = true → containsStr p ".js".toList = true := by
  intro p
  induction p with
  | nil => intro h; simp [containsStr, leadsWith] at h
  | cons c cs ih =>
    intro h
    simp only [containsStr, Bool.or_eq_true] at h ⊢
    cases h with
    | inl h1 =>
      left
      have he : ".json".toList = ".js".toList ++ "on".toList := rfl
      rw [he] at h1
      exact leadsWith_append_left _ _ _ h1
    | inr h2 => right; exact ih h2

/-- C6: a path containing ".json" is served as application/javascript
because the ".js" substring test runs first; the content type
application/json is unreachable for every path. -/
theorem claim_C6_json_unreachable :
    getMimeType "data.json".toList = "application/javascript".toList ∧
    ∀ p : Str, getMimeType p ≠ "application/json".toList := by
  constructor
  · decide
  · intro p
    unfold getMimeType
    by_cases h1 : containsStr p ".html".toList = true
    · rw [if_pos h1]; decide
    · rw [if_neg h1]
      by_cases h2 : containsStr p ".css".toList = true
      · rw [if_pos h2]; decide
      · rw [if_neg h2]
        by_cases h3 : containsStr p ".js".toList = true
        · rw [if_pos h3]; decide
        · rw [if_neg h3]
          by_cases h4 : containsStr p ".json".toList = true
          · exact absurd (contains_json_js p h4) h3
          · rw [if_neg h4]; decide

/-- C1 counterexample: with only GET /health registered, a POST to the
unknown path /nope is answered 405 (the claim demands 404 for a path
absent from the table); with /a registered under GET only and /b under
POST, a POST to /a is answered 404 (the claim demands 405 for a path
present under a different method). -/
theorem claim_C1_counterexample :
    (handleRequest fsEmpty cpEmpty ghEmpty demoRoutes
      "POST".toList "/nope".toList [] []).status = 405 ∧
    ¬ (handleRequest fsEmpty cpEmpty ghEmpty demoRoutes
      "POST".toList "/nope".toList [] []).status = 404 ∧
    (handleRequest fsEmpty cpEmpty ghEmpty demoRoutesTwo
      "POST".toList "/a".toList [] []).status = 404 ∧
    ¬ (handleRequest fsEmpty cpEmpty ghEmpty demoRoutesTwo
      "POST".toList "/a".toList [] []).status = 405 := by
  refine ⟨?_, ?_, ?_, ?_⟩ <;> decide

/-- C1 (amended): on a path matching none of the special prefixes,
dispatch is method-first: a method with no routes at all gives 405
whatever the path; a method with routes but without this path gives 404,
regardless of the path being registered under other methods; a
registered (method, path) pair gives 200. -/
theorem claim_C1_method_first (fs : Str → Option Str) (cp gh : Str → Str → Str)
    (routes : List (Str × List (Str × RouteHandler))) (method path body : Str)
    (headers : List (Str × Str))
    (h1 : leadsWith "/course/".toList path = false)
    (h2 : leadsWith "/css/".toList path = false)
    (h3 : leadsWith "/js/".toList path = false) :
    (handleRequest fs cp gh routes method path body headers).status =
      match lookupA routes method with
      | none => 405
      | some pathMap =>
        match lookupA pathMap path with
        | none => 404
        | some _ => 200 := by
  unfold handleRequest
  simp only [h1, h2, h3, Bool.or_self, Bool.false_eq_true, if_false]
  cases hm : lookupA routes method with
  | none => simp [hm]
  | some pathMap =>
    simp only [hm]
    cases hp : lookupA pathMap path with
    | none => simp [hp]
    | some handler =>
      simp only [hp]
      split
      · rfl
      · split
        · rfl
        · rfl

/-- C1 witness: the amended characterization applied to a registered
POST route. -/
theorem claim_C1_witness :
    leadsWith "/course/".toList "/b".toList = false ∧
    (handleRequest fsEmpty cpEmpty ghEmpty demoRoutesTwo
      "POST".toList "/b".toList [] []).status = 200 := by
  constructor
  · decide
  · rw [claim_C1_method_first fsEmpty cpEmpty ghEmpty demoRoutesTwo
      "POST".toList "/b".toList [] [] (by decide) (by decide) (by decide)]
    decide

/-- A path with the static /css/ prefix cannot have the /course/ prefix. -/
theorem css_not_course {p : Str} (h : leadsWith "/css/".toList p = true) :
    leadsWith "/course/".toList p = false := by
  obtain ⟨t, rfl⟩ := (leadsWith_iff _ p).1 h
  rfl

/-- A path with the static /js/ prefix cannot have the /course/ prefix. -/
theorem js_not_course {p : Str} (h : leadsWith "/js/".toList p = true) :
    leadsWith "/course/".toList p = false := by
  obtain ⟨t, rfl⟩ := (leadsWith_iff _ p).1 h
  rfl

/-- C10: on a path with the /course/, /css/ or /js/ prefix the dispatch
result does not depend on the method (nor on the route table, body or
headers), and the status is never 405. -/
theorem claim_C10_method_ignored (fs : Str → Option Str) (cp gh : Str → Str → Str)
    (routes routesB : List (Str × List (Str × RouteHandler)))
    (m mB p b bB : Str) (hs hsB : List (Str × Str))
    (hp : leadsWith "/course/".toList p = true ∨ leadsWith "/css/".toList p = true ∨
      leadsWith "/js/".toList p = true) :
    handleRequest fs cp gh routes m p b hs = handleRequest fs cp gh routesB mB p bB hsB ∧
    (handleRequest fs cp gh routes m p b hs).status ≠ 405 := by
  rcases hp with hc | hcss | hjs
  · refine ⟨?_, ?_⟩
    · unfold handleRequest
      simp only [if_pos hc]
    · unfold handleRequest
      simp only [if_pos hc]
      cases hsp : splitFirst ['/'] (p.drop 8) with
      | none => simp only [hsp]; decide
      | some pr => obtain ⟨mo, le⟩ := pr; simp only [hsp]; decide
  · have hnc : ¬ leadsWith "/course/".toList p = true := by
      rw [css_not_course hcss]; simp
    have hor : (leadsWith "/css/".toList p || leadsWith "/js/".toList p) = true := by
      rw [hcss]; simp
    refine ⟨?_, ?_⟩
    · unfold handleRequest
      rw [if_neg hnc, if_pos hor, if_neg hnc, if_pos hor]
    · unfold handleRequest
      rw [if_neg hnc, if_pos hor]
      by_cases hrb : serveStaticFile fs p = "File not found".toList
      · simp only [hrb]
        decide
      · simp only [if_neg hrb]
        decide
  · have hnc : ¬ leadsWith "/course/".toList p = true := by
      rw [js_not_course hjs]; simp
    have hor : (leadsWith "/css/".toList p || leadsWith "/js/".toList p) = true := by
      rw [hjs]; simp
    refine ⟨?_, ?_⟩
    · unfold handleRequest
      rw [if_neg hnc, if_pos hor, if_neg hnc, if_pos hor]
    · unfold handleRequest
      rw [if_neg hnc, if_pos hor]
      by_cases hrb : serveStaticFile fs p = "File not found".toList
      · simp only [hrb]
        decide
      · simp only [if_neg hrb]
        decide

/-- C10 witness: a DELETE to a course path and a GET to the same path
with a different route table dispatch identically and without 405. -/
theorem claim_C10_witness :
    leadsWith "/course/".toList "/course/fundamentals/introduction".toList = true ∧
    handleRequest fsEmpty cpEmpty ghEmpty demoRoutes "DELETE".toList
      "/course/fundamentals/introduction".toList [] [] =
      handleRequest fsEmpty cpEmpty ghEmpty [] "GET".toList
        "/course/fundamentals/introduction".toList [] [] ∧
    (handleRequest fsEmpty cpEmpty ghEmpty demoRoutes "DELETE".toList
      "/course/fundamentals/introduction".toList [] []).status ≠ 405 := by
  refine ⟨by decide, ?_, ?_⟩
  · exact (claim_C10_method_ignored fsEmpty cpEmpty ghEmpty demoRoutes []
      "DELETE".toList "GET".toList "/course/fundamentals/introduction".toList
      [] [] [] [] (Or.inl (by decide))).1
  · exact (claim_C10_method_ignored fsEmpty cpEmpty ghEmpty demoRoutes []
      "DELETE".toList "GET".toList "/course/fundamentals/introduction".toList
      [] [] [] [] (Or.inl (by decide))).2

/-- Lookup after an insert-or-overwrite. -/
theorem lookupA_setAssoc (hs : List (Str × Str)) (key v k : Str) :
    lookupA (setAssoc hs key v) k = if key = k then some v else lookupA hs k := by
  induction hs with
  | nil => simp [setAssoc, lookupA]
  | cons pr t ih =>
    obtain ⟨k0, v0⟩ := pr
    simp only [setAssoc]
    by_cases h0 : k0 = key
    · subst h0
      rw [if_pos rfl]
      by_cases hk : k0 = k
      · subst hk; simp [lookupA]
      · simp [lookupA, hk]
    · rw [if_neg h0]
      by_cases hk : k0 = k
      · subst hk
        have hkey : ¬ key = k0 := fun he => h0 he.symm
        simp [lookupA, hkey]
      · simp [lookupA, hk, ih]

/-- The header loop realizes last-occurrence-wins over the header lines:
looking up `k` after the loop returns the value contributed by the last
non-blank line before the terminator whose key part is `k`, and otherwise
looks into the initial map. -/
theorem lookupA_headerLoop : ∀ (lines : List Str) (hs : List (Str × Str)) (k : Str),
    lookupA (headerLoop lines hs).1 k =
      match lastVal k ((lines.takeWhile notBlankLine).filterMap headerKV) with
      | some v => some v
      | none => lookupA hs k := by
  intro lines
  induction lines with
  | nil => intro hs k; simp [headerLoop, lastVal]
  | cons l rest ih =>
    intro hs k
    by_cases hb : (l = "\r".toList ∨ l = [])
    · have hnb : notBlankLine l = false := by
        unfold notBlankLine
        simp only [decide_eq_false_iff_not, not_not]
        exact hb
      have hb2 : l = ['\r'] ∨ l = [] := hb
      simp [headerLoop, hb2, List.takeWhile_cons, hnb, lastVal]
    · have hnb : notBlankLine l = true := by
        simp only [notBlankLine, decide_eq_true_eq]
        exact hb
      have hrw : (l :: rest).takeWhile notBlankLine =
          l :: rest.takeWhile notBlankLine := by
        simp [List.takeWhile_cons, hnb]
      rw [hrw]
      cases hkv : splitFirst [':'] l with
      | none =>
        have hkv2 : headerKV l = none := by simp [headerKV, hkv]
        simp only [List.filterMap_cons, hkv2]
        simp only [headerLoop, if_neg hb, hkv]
        exact ih hs k

      | some pr =>
        obtain ⟨key, value⟩ := pr
        have hkv2 : headerKV l = some (key, stripTrailingCR value) := by
          simp [headerKV, hkv]
        simp only [List.filterMap_cons, hkv2]
        simp only [headerLoop, if_neg hb, hkv]
        rw [ih]
        simp only [lastVal]
        cases hlast : lastVal k ((rest.takeWhile notBlankLine).filterMap headerKV) with
        | some v => simp [hlast]
        | none =>
          simp only [hlast]
          by_cases hkey : key = k
          · simp [lookupA_setAssoc, hkey]
          · simp [lookupA_setAssoc, hkey]

/-- C3 (amended): the header mapping of a parsed request is built by
splitting each header line on its first colon and stripping one trailing
carriage return from the value (leading spaces are preserved), with a
later occurrence of the same name overwriting an earlier one: the lookup
of any key equals the value contributed by the last matching header
line. -/
theorem claim_C3_header_map (raw k : Str) :
    lookupA (parseHttpRequest raw).headers k =
      lastVal k ((((cppGetlines '\n' raw).drop 1).takeWhile notBlankLine).filterMap headerKV) := by
  unfold parseHttpRequest
  cases hlines : cppGetlines '\n' raw with
  | nil => simp [lookupA, lastVal]
  | cons first rest =>
    simp only [List.drop_succ_cons, List.drop_zero]
    rw [lookupA_headerLoop]
    cases hlast : lastVal k ((rest.takeWhile notBlankLine).filterMap headerKV) with
    | some v => simp
    | none => simp [lookupA]

/-- C3 counterexample: the leading space after the colon of
"Host: example.com" is kept in the stored value, not stripped. -/
theorem claim_C3_counterexample :
    lookupA (parseHttpRequest rawReqDemo).headers "Host".toList =
      some " example.com".toList ∧
    ¬ lookupA (parseHttpRequest rawReqDemo).headers "Host".toList =
      some "example.com".toList := by
  constructor <;> decide

/-- Splitting a delimiter-free string yields that single segment. -/
theorem splitAllChar_no_delim (dl : Char) : ∀ a : Str, dl ∉ a →
    splitAllChar dl a = [a] := by
  intro a
  induction a with
  | nil => intro h; rfl
  | cons c cs ih =>
    intro h
    have hc : ¬ dl = c := fun he => h (by simp [he])
    have hcs : dl ∉ cs := fun hm => h (List.mem_cons_of_mem c hm)
    have hbeq : (c == dl) = false := by
      simp only [beq_eq_false_iff_ne, ne_eq]
      exact fun he => hc he.symm
    simp only [splitAllChar, hbeq, Bool.false_eq_true, if_false, ih hcs]

/-- Splitting peels off a delimiter-free first segment. -/
theorem splitAllChar_append_delim (dl : Char) : ∀ a rest : Str, dl ∉ a →
    splitAllChar dl (a ++ dl :: rest) = a :: splitAllChar dl rest := by
  intro a
  induction a with
  | nil =>
    intro rest h
    simp [splitAllChar]
  | cons c cs ih =>
    intro rest h
    have hc : ¬ dl = c := fun he => h (by simp [he])
    have hcs : dl ∉ cs := fun hm => h (List.mem_cons_of_mem c hm)
    have hbeq : (c == dl) = false := by
      simp only [beq_eq_false_iff_ne, ne_eq]
      exact fun he => hc he.symm
    simp only [List.cons_append, splitAllChar, hbeq, Bool.false_eq_true, if_false,
      List.append_eq, ih rest hcs]

/-- The last element of a concatenation with a nonempty right part. -/
theorem getLast?_append_right : ∀ l1 l2 : Str, l2 ≠ [] →
    (l1 ++ l2).getLast? = l2.getLast? := by
  intro l1
  induction l1 with
  | nil => intro l2 h; simp
  | cons c cs ih =>
    intro l2 h
    rw [List.cons_append]
    rw [List.getLast?_cons]
    rw [ih l2 h]
    cases l2 with
    | nil => exact absurd rfl h
    | cons x xs => simp [List.getLast?_cons]

/-- The witness of a `getLast?` is a member. -/
theorem mem_of_getLastOpt : ∀ l : Str, ∀ c : Char, l.getLast? = some c → c ∈ l := by
  intro l
  induction l with
  | nil => intro c h; simp at h
  | cons x xs ih =>
    intro c h
    cases xs with
    | nil => simp at h; simp [h]
    | cons y ys =>
      rw [List.getLast?_cons_cons] at h
      exact List.mem_cons_of_mem x (ih c h)

/-- `getline` on three newline-separated newline-free lines, the last
nonempty, yields exactly those three lines. -/
theorem cppGetlines_three (h sep d : Str) (hn1 : '\n' ∉ h) (hn2 : '\n' ∉ sep)
    (hn3 : '\n' ∉ d) (hdne : d ≠ []) :
    cppGetlines '\n' (h ++ '\n' :: (sep ++ '\n' :: d)) = [h, sep, d] := by
  have hne : h ++ '\n' :: (sep ++ '\n' :: d) ≠ [] := by simp
  have hshape : h ++ '\n' :: (sep ++ '\n' :: d) = (h ++ '\n' :: sep) ++ ('\n' :: d) := by
    simp
  have hlast : (h ++ '\n' :: (sep ++ '\n' :: d)).getLast? = d.getLast? := by
    rw [hshape, getLast?_append_right _ _ (by simp)]
    rw [show ('\n' :: d) = ['\n'] ++ d by simp]
    rw [getLast?_append_right _ _ hdne]
  have hlastne : ¬ (h ++ '\n' :: (sep ++ '\n' :: d)).getLast? = some '\n' := by
    rw [hlast]
    cases hgl : d.getLast? with
    | none => simp
    | some c =>
      have hcm : c ∈ d := mem_of_getLastOpt d c hgl
      intro he
      injection he with he2
      rw [he2] at hcm
      exact hn3 hcm
  unfold cppGetlines
  rw [if_neg hne, if_neg hlastne]
  rw [splitAllChar_append_delim _ _ _ hn1, splitAllChar_append_delim _ _ _ hn2,
    splitAllChar_no_delim _ _ hn3]

/-- C5 (amended): a three-line pipe table (pipe-delimited header line,
separator line of pipes, dashes and spaces, pipe-delimited data line)
renders to exactly one table wrapper containing the header row and the
data row, each as a `<tr>` of `<td>` cells, with the separator line
consumed. -/
theorem claim_C5_three_line_table (h sep d : Str)
    (hh : isTableRow h = true) (hd : isTableRow d = true)
    (hsep : isSeparatorLine sep = true)
    (hn1 : '\n' ∉ h) (hn2 : '\n' ∉ sep) (hn3 : '\n' ∉ d) :
    processTables (h ++ '\n' :: (sep ++ '\n' :: d)) =
      tableOpen ++ processTableRow h ++ processTableRow d ++ tableClose := by
  have hdne : d ≠ [] := by
    intro he; rw [he] at hd; simp [isTableRow] at hd
  unfold processTables
  rw [cppGetlines_three h sep d hn1 hn2 hn3 hdne]
  simp [tableLoop, hh, hd, hsep]

/-- C5 counterexample: the three-line demo table renders with two table
rows (the header row is emitted as an ordinary `<td>` row before the
separator is dropped), not one; the table wrapper itself is unique and
the separator dashes are consumed. -/
theorem claim_C5_counterexample :
    countOccur "<tr>".toList (processTables demoTable) = 2 ∧
    ¬ countOccur "<tr>".toList (processTables demoTable) = 1 ∧
    countOccur "<table".toList (processTables demoTable) = 1 ∧
    containsStr (processTables demoTable) "---".toList = false := by
  refine ⟨?_, ?_, ?_, ?_⟩ <;> decide

/-- C5 witness: the amended statement applied to the demo table. -/
theorem claim_C5_witness :
    isTableRow "|a|b|".toList = true ∧
    processTables ("|a|b|".toList ++ '\n' :: ("|---|---|".toList ++ '\n' :: "|c|d|".toList)) =
      tableOpen ++ processTableRow "|a|b|".toList ++ processTableRow "|c|d|".toList ++
        tableClose :=
  ⟨by decide,
    claim_C5_three_line_table "|a|b|".toList "|---|---|".toList "|c|d|".toList
      (by decide) (by decide) (by decide) (by decide) (by decide) (by decide)⟩

/-- The first collection loop of `sortLessonsInModule` is a filter of the
catalog order by membership in the discovered lessons. -/
theorem foldl_pick_filter (lessons : List Str) : ∀ (d acc : List Str),
    d.foldl (fun a x => if x ∈ lessons then a ++ [x] else a) acc =
      acc ++ d.filter (fun x => decide (x ∈ lessons)) := by
  intro d
  induction d with
  | nil => intro acc; simp
  | cons x t ih =>
    intro acc
    by_cases hx : x ∈ lessons
    · simp only [List.foldl_cons, if_pos hx, ih, List.filter_cons,
        decide_eq_true_eq, hx, if_true, List.append_assoc, List.singleton_append]
    · simp only [List.foldl_cons, if_neg hx, ih, List.filter_cons]
      rw [if_neg (by simpa using hx)]

/-- The second collection loop of `sortLessonsInModule`: provided the
pending lessons are distinct and agree with the accumulator exactly on
catalog membership, the loop appends the non-catalog lessons in their
original order. -/
theorem foldl_dedup_filter (desired : List Str) : ∀ (rest acc : List Str),
    rest.Nodup → (∀ x ∈ rest, (x ∈ acc ↔ x ∈ desired)) →
    rest.foldl (fun a x => if x ∈ a then a else a ++ [x]) acc =
      acc ++ rest.filter (fun x => decide (x ∉ desired)) := by
  intro rest
  induction rest with
  | nil => intro acc _ _; simp
  | cons x t ih =>
    intro acc hnd hinv
    have hx := hinv x (List.mem_cons_self x t)
    have hndt : t.Nodup := (List.nodup_cons.1 hnd).2
    have hxt : x ∉ t := (List.nodup_cons.1 hnd).1
    by_cases hxa : x ∈ acc
    · have hxd : x ∈ desired := hx.1 hxa
      have hinv2 : ∀ y ∈ t, (y ∈ acc ↔ y ∈ desired) :=
        fun y hy => hinv y (List.mem_cons_of_mem x hy)
      simp only [List.foldl_cons, if_pos hxa, ih acc hndt hinv2, List.filter_cons]
      rw [if_neg (by simpa using hxd)]
    · have hxd : x ∉ desired := fun hd => hxa (hx.2 hd)
      have hinv2 : ∀ y ∈ t, (y ∈ acc ++ [x] ↔ y ∈ desired) := by
        intro y hy
        rw [List.mem_append]
        constructor
        · intro hc
          cases hc with
          | inl hc1 => exact (hinv y (List.mem_cons_of_mem x hy)).1 hc1
          | inr hc2 =>
            simp at hc2
            rw [hc2] at hy
            exact absurd hy hxt
        · intro hd
          exact Or.inl ((hinv y (List.mem_cons_of_mem x hy)).2 hd)
      simp only [List.foldl_cons, if_neg hxa, ih (acc ++ [x]) hndt hinv2,
        List.filter_cons]
      rw [if_pos (by simpa using hxd)]
      simp

/-- C7: with distinct discovered lesson names, a module with a catalog
entry gets the catalog lessons that were discovered first, in catalog
order, followed by the remaining discovered lessons in discovery order;
a module without an entry keeps its list untouched. -/
theorem claim_C7_lesson_order (name : Str) (lessons : List Str)
    (hnd : lessons.Nodup) :
    sortLessonsInModule name lessons =
      match lookupA lessonOrderCatalog name with
      | none => lessons
      | some desired =>
        desired.filter (fun x => decide (x ∈ lessons)) ++
          lessons.filter (fun x => decide (x ∉ desired)) := by
  unfold sortLessonsInModule
  cases hcat : lookupA lessonOrderCatalog name with
  | none => simp
  | some desired =>
    simp only []
    rw [foldl_pick_filter lessons desired []]
    rw [List.nil_append]
    rw [foldl_dedup_filter desired lessons
      (desired.filter (fun x => decide (x ∈ lessons))) hnd ?_]
    intro x hx
    simp [List.mem_filter, hx]

/-- C7 witness: the characterization applied to the fundamentals module
with discovery order [threading, introduction, extra]. -/
theorem claim_C7_witness :
    (["threading".toList, "introduction".toList, "extra".toList] : List Str).Nodup ∧
    sortLessonsInModule "fundamentals".toList
      ["threading".toList, "introduction".toList, "extra".toList] =
      ["introduction".toList, "threading".toList, "extra".toList] := by
  constructor
  · decide
  · rw [claim_C7_lesson_order "fundamentals".toList
      ["threading".toList, "introduction".toList, "extra".toList] (by decide)]
    decide

/-- `std::find` misses: the first-occurrence index of an absent element is
the length. -/
theorem firstIdx_of_not_mem : ∀ ls : List Str, ∀ cur : Str, cur ∉ ls →
    firstIdx cur ls = ls.length := by
  intro ls
  induction ls with
  | nil => intro cur h; rfl
  | cons y ys ih =>
    intro cur h
    have hy : ¬ y = cur := fun he => h (by simp [he])
    simp only [firstIdx, if_neg hy, List.length_cons, ih cur (fun hm => h (List.mem_cons_of_mem y hm))]

/-- `std::find` hits: the first-occurrence index of `cur` after a
`cur`-free prefix is the prefix length. -/
theorem firstIdx_append : ∀ l1 : List Str, ∀ cur : Str, ∀ l2 : List Str, cur ∉ l1 →
    firstIdx cur (l1 ++ cur :: l2) = l1.length := by
  intro l1
  induction l1 with
  | nil => intro cur l2 h; simp [firstIdx]
  | cons y ys ih =>
    intro cur l2 h
    have hy : ¬ y = cur := fun he => h (by simp [he])
    simp only [List.cons_append, firstIdx, if_neg hy, List.length_cons,
      List.append_eq, ih cur l2 (fun hm => h (List.mem_cons_of_mem y hm))]

/-- C8: previous/next are determined by the linear position of the
current lesson in the module list: an unknown module gives two empty
strings, a lesson absent from its module gives two empty strings, and a
lesson at a given position gets as previous the last element of the
prefix before it (empty at the start) and as next the first element of
the suffix after it (empty at the end). -/
theorem claim_C8_prev_next (modules : List (Str × List Str)) (m cur : Str) :
    (lookupA modules m = none → getPreviousNextLesson modules m cur = ([], [])) ∧
    (∀ ls, lookupA modules m = some ls → cur ∉ ls →
      getPreviousNextLesson modules m cur = ([], [])) ∧
    (∀ l1 l2, lookupA modules m = some (l1 ++ cur :: l2) → cur ∉ l1 →
      getPreviousNextLesson modules m cur =
        ((l1.getLast?).getD [], (l2.head?).getD [])) := by
  refine ⟨?_, ?_, ?_⟩
  · intro hm
    unfold getPreviousNextLesson
    rw [hm]
  · intro ls hm hc
    unfold getPreviousNextLesson
    rw [hm]
    simp only [firstIdx_of_not_mem ls cur hc]
    rw [if_neg (by omega)]
  · intro l1 l2 hm hc
    unfold getPreviousNextLesson
    rw [hm]
    simp only [firstIdx_append l1 cur l2 hc]
    have hlen : (l1 ++ cur :: l2).length = l1.length + 1 + l2.length := by
      simp
      omega
    rw [if_pos (by omega)]
    have hprev : (if l1.length = 0 then []
        else (l1 ++ cur :: l2).getD (l1.length - 1) []) = (l1.getLast?).getD [] := by
      cases l1 with
      | nil => simp
      | cons a t =>
        rw [if_neg (by simp)]
        rw [List.getD_eq_getElem?_getD]
        have hidx : (a :: t).length - 1 < (a :: t).length := by simp
        rw [List.getElem?_append]
        rw [if_pos (by simp)]
        rw [List.getLast?_eq_getElem?]
    have hnext : (if l1.length + 1 < (l1 ++ cur :: l2).length
        then (l1 ++ cur :: l2).getD (l1.length + 1) [] else []) = (l2.head?).getD [] := by
      cases l2 with
      | nil => rw [if_neg (by simp)]; simp
      | cons y t2 =>
        rw [if_pos (by simp)]
        rw [List.getD_eq_getElem?_getD]
        rw [List.getElem?_append_right (by omega)]
        have hsub : l1.length + 1 - l1.length = 1 := by omega
        rw [hsub]
        simp
    rw [hprev, hnext]

/-- C8 witness: the characterization applied to a concrete module. -/
theorem claim_C8_witness :
    getPreviousNextLesson [("m".toList, ["a".toList, "b".toList, "c".toList])]
      "x".toList "b".toList = ([], []) ∧
    getPreviousNextLesson [("m".toList, ["a".toList, "b".toList, "c".toList])]
      "m".toList "b".toList = ("a".toList, "c".toList) := by
  constructor
  · exact (claim_C8_prev_next [("m".toList, ["a".toList, "b".toList, "c".toList])]
      "x".toList "b".toList).1 (by decide)
  · have h3 := (claim_C8_prev_next [("m".toList, ["a".toList, "b".toList, "c".toList])]
      "m".toList "b".toList).2.2 ["a".toList] ["c".toList] (by decide) (by decide)
    rw [h3]
    decide

/-- C9: the renderer is total.  Every pass is a total function, so
`markdownToHtml` returns an output for every input string; each
fuel-embedded while loop halts within its budget, witnessed by the output
being independent of any fuel above the input length; and the pathological
inputs named by the specification (an unclosed fence, an unclosed bold
marker, a dangling table row) produce degraded output rather than an
error. -/
theorem claim_C9_renderer_total (s : Str) :
    (∃ out, markdownToHtml s = out) ∧
    (∀ f1 f2, s.length < f1 → s.length < f2 → codeFenceFuel f1 s = codeFenceFuel f2 s) ∧
    (∀ acc rest : Str, ∀ f1 f2, rest.length < f1 → rest.length < f2 →
      inlineCodeFuel f1 acc rest = inlineCodeFuel f2 acc rest) ∧
    (∀ f1 f2, s.length < f1 → s.length < f2 → boldFuel f1 s = boldFuel f2 s) ∧
    (∀ f1 f2, s.length < f1 → s.length < f2 → cellBoldFuel f1 s = cellBoldFuel f2 s) ∧
    (∀ f1 f2, s.length < f1 → s.length < f2 → linksFuel f1 s = linksFuel f2 s) ∧
    (∀ f1 f2, s.length < f1 → s.length < f2 → ulWrapFuel f1 s = ulWrapFuel f2 s) ∧
    (∀ f1 f2, s.length ≤ f1 → s.length ≤ f2 → liRepeatsFuel f1 s = liRepeatsFuel f2 s) ∧
    markdownToHtml "```\nx".toList = "<code></code>`\nx\n".toList ∧
    markdownToHtml "**x".toList = "**x\n".toList ∧
    markdownToHtml "|a|\n|b".toList =
      (tableOpen ++ "<tr><td>a</td></tr>".toList ++ tableClose ++ "|b\n".toList) := by
  refine ⟨⟨markdownToHtml s, rfl⟩, ?_, ?_, ?_, ?_, ?_, ?_, ?_, ?_, ?_, ?_⟩
  · intro f1 f2 h1 h2; exact codeFenceFuel_stable f1 s f2 h1 h2
  · intro acc rest f1 f2 h1 h2; exact inlineCodeFuel_stable f1 acc rest f2 h1 h2
  · intro f1 f2 h1 h2; exact boldFuel_stable f1 s f2 h1 h2
  · intro f1 f2 h1 h2; exact cellBoldFuel_stable f1 s f2 h1 h2
  · intro f1 f2 h1 h2; exact linksFuel_stable f1 s f2 h1 h2
  · intro f1 f2 h1 h2; exact ulWrapFuel_stable f1 s f2 h1 h2
  · intro f1 f2 h1 h2; exact liRepeatsFuel_stable f1 s f2 h1 h2
  · decide
  · decide
  · decide

/-- C9 witness: the fuel-stability parts applied at a concrete string and
concrete fuels. -/
theorem claim_C9_witness :
    ("-a-".toList : Str).length < 4 ∧
    codeFenceFuel 4 "-a-".toList = codeFenceFuel 9 "-a-".toList ∧
    boldFuel 4 "-a-".toList = boldFuel 9 "-a-".toList := by
  refine ⟨by decide, ?_, ?_⟩
  · exact (claim_C9_renderer_total "-a-".toList).2.1 4 9 (by decide) (by decide)
  · exact (claim_C9_renderer_total "-a-".toList).2.2.2.1 4 9 (by decide) (by decide)
